import Mathlib

/-!
Verification development for the agentic-cursorrules repository.

The definitions below are a shallow embedding of the Python source:

* FSTree models a filesystem snapshot (a node is a file or a directory;
  a directory whose listing would fail, e.g. for permissions, carries
  readable = false).
* generate_tree / genTreeAux / renderItems transcribe
  ProjectTreeGenerator.generate_tree and its inner _generate_tree from
  src/main.py (the recursion is driven by an explicit fuel argument;
  generate_tree supplies fuel = maxDepth + 1, so that fuel reaches 0 only
  at depth = maxDepth + 1, where the depth guard of the source already
  returns, hence the fuel-0 branch is unreachable from generate_tree).
* normalizeFocusSpec transcribes the focus-spec normalization at the top
  of ProjectTreeGenerator.find_focus_dirs in src/main.py.
* scanCounts / isSignificantDir transcribe the counting loop and the
  significance filter of SmartCodeAnalyzer._scan_for_code_directories in
  src/smart_analyzer.py (the os.walk output is taken as an input list of
  (directory path segments, filenames) pairs: the walk itself reads the
  real filesystem).
* merge_with_defaults transcribes ConfigGenerator.merge_with_defaults in
  src/config_generator.py, and update_config transcribes
  SmartCodeAnalyzer._update_config in src/smart_analyzer.py; dicts with
  optional keys are modeled as structures with Option-valued fields.

Strings are compared the way CPython compares str values (code-point
lexicographic); Python sorted is stable, and the embedding uses insertion
sort, which agrees with it whenever sibling names are distinct (always
true of a real directory listing).
-/

/-- One rendered tree row, mirroring the f-string
prefix + connector + name (+ trailing slash for directories) built in
_generate_tree of src/main.py. ind is the indentation in front of the
connector glyph; the rendered text is recovered by Line.render. -/
structure Line where
  ind : String
  isLast : Bool
  name : String
  isDir : Bool
deriving DecidableEq, Repr

/-- The rendered text of one row, exactly as the source interpolates it. -/
def Line.render (l : Line) : String :=
  l.ind ++ (if l.isLast then "└── " else "├── ") ++ l.name ++ (if l.isDir then "/" else "")

/-- A filesystem snapshot. A node is a file (isFile = true, children
ignored and empty) or a directory; readable = false marks a directory
whose iterdir() call raises (permissions or a race with deletion). -/
inductive FSTree where
  | mk (name : String) (isFile : Bool) (readable : Bool) (children : List FSTree)

def FSTree.name : FSTree → String
  | .mk n _ _ _ => n

def FSTree.isFile : FSTree → Bool
  | .mk _ f _ _ => f

def FSTree.readable : FSTree → Bool
  | .mk _ _ r _ => r

def FSTree.children : FSTree → List FSTree
  | .mk _ _ _ c => c

/-- The configuration as ProjectTreeGenerator.__init__ loads it from
config.yaml, together with the injected gitignore-style predicate
(self.matches in the source); the predicate is applied to the rendered
path of an entry. -/
structure Config where
  excludeDirs : List String
  includeExtensions : List String
  ignores : String → Bool

/-- Code-point comparison of strings as lists of characters: CPython's
s1 <= s2 on str values. -/
def strLeB : List Char → List Char → Bool
  | [], _ => true
  | _ :: _, [] => false
  | a :: as, b :: bs => if a.toNat = b.toNat then strLeB as bs else decide (a.toNat < b.toNat)

/-- t.startswith(p) on Python strings. -/
def pyStartsWith (t p : String) : Bool :=
  List.isPrefixOf p.data t.data

/-- t.endswith(p) on Python strings. -/
def pyEndsWith (t p : String) : Bool :=
  List.isSuffixOf p.data t.data

/-- The sort key of _generate_tree in src/main.py:
sorted(..., key = lambda x: (not x.is_file(), x.name)), as a boolean
less-or-equal test: files sort before directories, and within a group
names compare as Python strings. -/
def childOrder (a b : FSTree) : Bool :=
  if a.isFile = b.isFile then strLeB a.name.data b.name.data else a.isFile

/-- childOrder as a decidable relation, for List.insertionSort. -/
def childOrderP (a b : FSTree) : Prop := childOrder a b = true

instance : DecidableRel childOrderP := fun _ _ => instDecidableEqBool _ _

/-- str(item.relative_to(self.project_root)) for a child named n of the
directory whose own relative path is r. -/
def joinRel (r n : String) : String :=
  if r = "" || r = "." then n else r ++ "/" ++ n

/-- The skip test of _generate_tree in src/main.py (lines 245-250):
item.name in self.EXCLUDE_DIRS, or self.matches(...), or
rel_path in skip_dirs, or the entry is a directory and some configured
path starts with rel_path. -/
def skipEntry (cfg : Config) (skipDirs configPaths : List String)
    (childRel : String) (item : FSTree) : Bool :=
  cfg.excludeDirs.contains item.name || cfg.ignores childRel ||
    skipDirs.contains childRel ||
    (!item.isFile && configPaths.any (fun cp => pyStartsWith cp childRel))

/-- extensions_to_check = file_types if file_types else self.INCLUDE_EXTENSIONS
(line 259 of src/main.py): Python truthiness makes both None and the empty
list fall back to the configured extension list. -/
def extensionsToCheck (fileTypes : Option (List String)) (incl : List String) : List String :=
  match fileTypes with
  | none => incl
  | some [] => incl
  | some (e :: es) => e :: es

/-- The body of the for-loop of _generate_tree over the sorted sibling
list: i is the running enumerate index, total the length of the full
sorted list (is_last compares i with total - 1, before any filtering),
and renderChild performs the recursive call for a subdirectory. Errors
(a raised exception during a recursive listing) abort the whole loop,
as in the source, where no exception is caught. -/
def renderItems (cfg : Config) (skipDirs configPaths : List String)
    (fileTypes : Option (List String))
    (renderChild : FSTree → String → Bool → Except Unit (List Line))
    (rel pfx : String) (total : Nat) :
    Nat → List FSTree → Except Unit (List Line)
  | _, [] => .ok []
  | i, item :: rest =>
    let childRel := joinRel rel item.name
    if skipEntry cfg skipDirs configPaths childRel item then
      renderItems cfg skipDirs configPaths fileTypes renderChild rel pfx total (i + 1) rest
    else
      let isLast := decide (i = total - 1)
      if item.isFile = false then
        match renderChild item childRel isLast with
        | .error e => .error e
        | .ok sub =>
          match renderItems cfg skipDirs configPaths fileTypes renderChild rel pfx total (i + 1) rest with
          | .error e => .error e
          | .ok tail => .ok (Line.mk pfx isLast item.name true :: (sub ++ tail))
      else
        if (extensionsToCheck fileTypes cfg.includeExtensions).any
            (fun ext => pyEndsWith item.name ext) then
          match renderItems cfg skipDirs configPaths fileTypes renderChild rel pfx total (i + 1) rest with
          | .error e => .error e
          | .ok tail => .ok (Line.mk pfx isLast item.name false :: tail)
        else
          renderItems cfg skipDirs configPaths fileTypes renderChild rel pfx total (i + 1) rest

/-- _generate_tree of src/main.py. The depth guard (depth > max_depth:
return) is checked first, then the directory listing (which raises,
.error, when the directory is unreadable), then the sorted loop. fuel
only bounds the recursion for Lean; generate_tree instantiates it so
that the fuel-0 branch is unreachable (see genTreeAux_fuel_irrelevant). -/
def genTreeAux (cfg : Config) (skipDirs configPaths : List String)
    (fileTypes : Option (List String)) (maxDepth : Nat) :
    Nat → FSTree → String → String → Nat → Except Unit (List Line)
  | 0, _, _, _, _ => .ok []
  | fuel + 1, t, rel, pfx, depth =>
    if depth > maxDepth then .ok []
    else if t.readable = false then .error ()
    else
      let items := List.insertionSort childOrderP t.children
      renderItems cfg skipDirs configPaths fileTypes
        (fun c childRel isLast =>
          genTreeAux cfg skipDirs configPaths fileTypes maxDepth fuel c childRel
            (pfx ++ (if isLast then "    " else "│   ")) (depth + 1))
        rel pfx items.length 0 items

/-- generate_tree of src/main.py, rendering the focus directory t whose
path relative to the project root is rel. -/
def generate_tree (cfg : Config) (t : FSTree) (fileTypes : Option (List String))
    (maxDepth : Nat) (skipDirs configPaths : List String) (rel : String) :
    Except Unit (List Line) :=
  genTreeAux cfg skipDirs configPaths fileTypes maxDepth (maxDepth + 1) t rel "" 0

/-- Two consecutive underscores occur in the character list: the Python
membership test of a double underscore in a spec string. -/
def hasDoubleUnderscore : List Char → Bool
  | a :: b :: rest => (a = '_' && b = '_') || hasDoubleUnderscore (b :: rest)
  | _ => false

/-- The focus-spec normalization of find_focus_dirs in src/main.py
(lines 274-284): a spec containing a double underscore is preserved
verbatim; otherwise a spec containing an underscore and no slash has
every underscore replaced by a path separator; every other spec is
preserved. -/
def normalizeFocusSpec (fd : String) : String :=
  if hasDoubleUnderscore fd.data then fd
  else if fd.data.contains '_' && !fd.data.contains '/' then
    String.mk (fd.data.map (fun c => if c = '_' then '/' else c))
  else fd

/-- One increment of the Counter self.code_dirs (a counter is modeled as
its lookup function). -/
def bump (cnt : List String → Nat) (k : List String) : List String → Nat :=
  fun d => if d = k then cnt d + 1 else cnt d

/-- All the keys incremented for one counted file whose directory has the
given path segments: the directory itself and every proper ancestor down
to one segment (the while-loop over os.path.dirname in
_scan_for_code_directories of src/smart_analyzer.py). -/
def countedKeys (dirSegs : List String) : List (List String) :=
  dirSegs.inits.filter (fun q => !q.isEmpty)

/-- The counting loop of _scan_for_code_directories in
src/smart_analyzer.py (lines 196-216): walks is the sequence of
(directory path relative to the project root, as segments; filenames)
pairs produced by os.walk; a file whose name ends with a recognized
extension increments its directory and every ancestor, and files sitting
directly in the project root (empty segment list) are not counted. -/
def scanCounts (exts : List String) (walks : List (List String × List String)) :
    List String → Nat :=
  walks.foldl
    (fun cnt w =>
      w.2.foldl
        (fun c f =>
          if exts.any (fun ext => pyEndsWith f ext) then
            if w.1.isEmpty then c else (countedKeys w.1).foldl bump c
          else c)
        cnt)
    (fun _ => 0)

/-- Membership in the significant-directory dict of
_scan_for_code_directories (lines 219-220): count at least 3 and a
non-empty (truthy) directory path. -/
def isSignificantDir (cnt : List String → Nat) (d : List String) : Prop :=
  3 ≤ cnt d ∧ d ≠ []

/-- A parsed config.yaml dict: each key may be absent. -/
structure YamlConfig where
  projectTitle : Option String
  treeFocus : Option (List String)
  excludeDirs : Option (List String)
  importantDirs : Option (List String)
  includeExtensions : Option (List String)
deriving DecidableEq, Repr

/-- The self.defaults dict shared by ConfigGenerator and ConfigUpdater. -/
structure Defaults where
  importantDirs : List String
  excludeDirs : List String
  includeExtensions : List String

/-- ConfigGenerator.merge_with_defaults of src/config_generator.py
(lines 81-96): set project_title from the project directory name only
when absent, and fill each missing defaults section. -/
def merge_with_defaults (projDirName : String) (dfl : Defaults) (c : YamlConfig) :
    YamlConfig :=
  { c with
    projectTitle := some (c.projectTitle.getD projDirName)
    importantDirs := some (c.importantDirs.getD dfl.importantDirs)
    excludeDirs := some (c.excludeDirs.getD dfl.excludeDirs)
    includeExtensions := some (c.includeExtensions.getD dfl.includeExtensions) }

/-- SmartCodeAnalyzer._update_config of src/smart_analyzer.py
(lines 260-281): overwrite project_title with the project directory name
and tree_focus with the computed focus list, and set exclude_dirs from
the analyzer's set only when the key is absent (the re-ordering of the
output dict is presentation only and not modeled). -/
def update_config (projDirName : String) (analyzerExcludes : List String)
    (focusDirs : List String) (c : YamlConfig) : YamlConfig :=
  { c with
    projectTitle := some projDirName
    treeFocus := some focusDirs
    excludeDirs := some (c.excludeDirs.getD analyzerExcludes) }

/-- The names of the strict descendants of a node that the renderer may
reach: a child whose name is excluded contributes nothing (neither its
name nor anything below it); any other child contributes its name and,
recursively, its own reachable names. Used to state that exclusion cuts
whole subtrees. -/
def visNames (excl : List String) : FSTree → List String
  | .mk _ _ _ cs => visNamesList excl cs
where
  visNamesList (excl : List String) : List FSTree → List String
  | [] => []
  | c :: cs =>
    (if excl.contains c.name then [] else c.name :: visNames excl c) ++ visNamesList excl cs

/-- The order the claim about sorting asserts on rendered rows: the key
(is_directory, name) ascending, files before directories, names in
Python string order within a group. -/
def lineKeyLE (a b : Line) : Bool :=
  if a.isDir = b.isDir then strLeB a.name.data b.name.data else !a.isDir

/-- The traversal of _generate_tree reaches an unreadable directory:
either the call's own directory cannot be listed (and the depth guard
admits the call, depth at most max_depth, so iterdir is actually
invoked), or some child directory that survives the skip test is
entered at depth + 1 and the failure is reached below it. This is
exactly the set of listing failures the source code can run into. -/
inductive ReachesUnreadable (cfg : Config) (sk cp : List String) (md : Nat) :
    FSTree → String → Nat → Prop where
  | here : ∀ (t : FSTree) (rel : String) (depth : Nat),
      depth ≤ md → t.readable = false →
      ReachesUnreadable cfg sk cp md t rel depth
  | child : ∀ (t : FSTree) (rel : String) (depth : Nat) (c : FSTree),
      depth ≤ md → t.readable = true →
      c ∈ t.children → c.isFile = false →
      skipEntry cfg sk cp (joinRel rel c.name) c = false →
      ReachesUnreadable cfg sk cp md c (joinRel rel c.name) (depth + 1) →
      ReachesUnreadable cfg sk cp md t rel depth

/-! Unfolding equations, stated once and reused below. -/

theorem renderItems_nil (cfg : Config) (sk cp : List String) (ft : Option (List String))
    (rc : FSTree → String → Bool → Except Unit (List Line)) (rel pfx : String)
    (total i : Nat) :
    renderItems cfg sk cp ft rc rel pfx total i [] = .ok [] := rfl

theorem renderItems_cons (cfg : Config) (sk cp : List String) (ft : Option (List String))
    (rc : FSTree → String → Bool → Except Unit (List Line)) (rel pfx : String)
    (total i : Nat) (item : FSTree) (rest : List FSTree) :
    renderItems cfg sk cp ft rc rel pfx total i (item :: rest) =
      if skipEntry cfg sk cp (joinRel rel item.name) item then
        renderItems cfg sk cp ft rc rel pfx total (i + 1) rest
      else if item.isFile = false then
        match rc item (joinRel rel item.name) (decide (i = total - 1)) with
        | .error e => .error e
        | .ok sub =>
          match renderItems cfg sk cp ft rc rel pfx total (i + 1) rest with
          | .error e => .error e
          | .ok tail =>
            .ok (Line.mk pfx (decide (i = total - 1)) item.name true :: (sub ++ tail))
      else if (extensionsToCheck ft cfg.includeExtensions).any
          (fun ext => pyEndsWith item.name ext) then
        match renderItems cfg sk cp ft rc rel pfx total (i + 1) rest with
        | .error e => .error e
        | .ok tail => .ok (Line.mk pfx (decide (i = total - 1)) item.name false :: tail)
      else renderItems cfg sk cp ft rc rel pfx total (i + 1) rest := rfl

theorem genTreeAux_zero (cfg : Config) (sk cp : List String) (ft : Option (List String))
    (md : Nat) (t : FSTree) (rel pfx : String) (depth : Nat) :
    genTreeAux cfg sk cp ft md 0 t rel pfx depth = .ok [] := rfl

theorem genTreeAux_succ (cfg : Config) (sk cp : List String) (ft : Option (List String))
    (md fuel : Nat) (t : FSTree) (rel pfx : String) (depth : Nat) :
    genTreeAux cfg sk cp ft md (fuel + 1) t rel pfx depth =
      if depth > md then .ok []
      else if t.readable = false then .error ()
      else
        renderItems cfg sk cp ft
          (fun c childRel isLast =>
            genTreeAux cfg sk cp ft md fuel c childRel
              (pfx ++ (if isLast then "    " else "│   ")) (depth + 1))
          rel pfx (List.insertionSort childOrderP t.children).length 0
          (List.insertionSort childOrderP t.children) := rfl

/-! Generic foldl invariants, used for the density-scan counter. -/

theorem foldl_pres_mem {α β : Type} (P : β → Prop) (f : β → α → β) :
    ∀ l : List α, (∀ cnt a, a ∈ l → P cnt → P (f cnt a)) →
      ∀ cnt, P cnt → P (l.foldl f cnt) := by
  intro l
  induction l with
  | nil => intro _ cnt h; exact h
  | cons a l ih =>
    intro hf cnt h
    exact ih (fun cnt b hb => hf cnt b (List.mem_cons_of_mem _ hb)) _
      (hf _ _ (List.mem_cons_self _ _) h)

theorem countedKeys_ne_nil (d : List String) : ∀ k ∈ countedKeys d, k ≠ [] := by
  intro k hk
  unfold countedKeys at hk
  rcases List.mem_filter.mp hk with ⟨-, hne⟩
  simpa using hne

theorem scanCounts_nil_key (exts : List String)
    (walks : List (List String × List String)) : scanCounts exts walks [] = 0 := by
  unfold scanCounts
  refine foldl_pres_mem (fun cnt : List String → Nat => cnt [] = 0) _ walks ?_ _ rfl
  intro cnt w _ h
  refine foldl_pres_mem (fun c : List String → Nat => c [] = 0) _ w.2 ?_ _ h
  intro c f _ hc
  split
  · split
    · exact hc
    · refine foldl_pres_mem (fun c : List String → Nat => c [] = 0) _ (countedKeys w.1) ?_ _ hc
      intro c k hk h0
      have : ¬([] : List String) = k := fun he => countedKeys_ne_nil w.1 k hk he.symm
      simp [bump, this, h0]
  · exact hc

/-- C6: a focus spec containing an underscore, no slash, and no double
underscore has every underscore turned into a path separator (so
api_tests denotes the path api/tests), while a spec containing a double
underscore, such as __tests__, is preserved verbatim and never split. -/
theorem c6_underscore_spec_normalization :
    (∀ fd : String, hasDoubleUnderscore fd.data = true → normalizeFocusSpec fd = fd) ∧
    (∀ fd : String, hasDoubleUnderscore fd.data = false →
      fd.data.contains '_' = true → fd.data.contains '/' = false →
      normalizeFocusSpec fd =
        String.mk (fd.data.map (fun c => if c = '_' then '/' else c))) ∧
    normalizeFocusSpec "api_tests" = "api/tests" ∧
    normalizeFocusSpec "__tests__" = "__tests__" := by
  refine ⟨?_, ?_, rfl, rfl⟩
  · intro fd h
    simp [normalizeFocusSpec, h]
  · intro fd h1 h2 h3
    unfold normalizeFocusSpec
    split
    · next hdd => rw [h1] at hdd; cases hdd
    · split
      · rfl
      · next hcond => exact absurd (by rw [h2, h3]; rfl) hcond

/-- Witness for the C6 theorem at the concrete spec my_utils. -/
theorem c6_underscore_spec_normalization_witness :
    normalizeFocusSpec "my_utils" =
      String.mk (("my_utils" : String).data.map (fun c => if c = '_' then '/' else c)) :=
  c6_underscore_spec_normalization.2.1 "my_utils" rfl rfl rfl

/-- C8: in the code-density scan, a directory whose accumulated count is
exactly 2 is never in the significant set, and one whose accumulated
count is exactly 3 is in it (the threshold is at least 3 rolled-up code
files). -/
theorem c8_significance_threshold (exts : List String)
    (walks : List (List String × List String)) (d : List String) :
    (scanCounts exts walks d = 2 → ¬ isSignificantDir (scanCounts exts walks) d) ∧
    (scanCounts exts walks d = 3 → isSignificantDir (scanCounts exts walks) d) := by
  constructor
  · intro h2 hsig
    have := hsig.1
    omega
  · intro h3
    refine ⟨by omega, ?_⟩
    intro hd
    subst hd
    rw [scanCounts_nil_key] at h3
    omega

/-- Witness for the C8 theorem: a directory with two .py files is not
significant, a directory with three is. -/
theorem c8_significance_threshold_witness :
    ¬ isSignificantDir
        (scanCounts [".py"] [(["a"], ["x.py", "y.py"]), (["b"], ["x.py", "y.py", "z.py"])])
        ["a"] ∧
      isSignificantDir
        (scanCounts [".py"] [(["a"], ["x.py", "y.py"]), (["b"], ["x.py", "y.py", "z.py"])])
        ["b"] :=
  ⟨(c8_significance_threshold [".py"]
      [(["a"], ["x.py", "y.py"]), (["b"], ["x.py", "y.py", "z.py"])] ["a"]).1 rfl,
    (c8_significance_threshold [".py"]
      [(["a"], ["x.py", "y.py"]), (["b"], ["x.py", "y.py", "z.py"])] ["b"]).2 rfl⟩

/-- C9 counterexample: SmartCodeAnalyzer._update_config overwrites an
existing project_title (here: custom) with the project directory name
(here: proj), so the claim that config synthesis keeps an existing title
fails on this code path. -/
theorem c9_counterexample :
    (update_config "proj" ["node_modules"] ["src"]
        ⟨some "custom", none, none, none, none⟩).projectTitle = some "proj" ∧
      ("proj" : String) ≠ "custom" :=
  ⟨rfl, by decide⟩

/-- C9 amended: ConfigGenerator.merge_with_defaults keeps an existing
project_title and derives the title from the project root directory name
only when none is present; SmartCodeAnalyzer._update_config, by
contrast, always overwrites project_title with the project root
directory name. -/
theorem c9_project_title_synthesis :
    (∀ (n : String) (dfl : Defaults) (c : YamlConfig) (ti : String),
      c.projectTitle = some ti → (merge_with_defaults n dfl c).projectTitle = some ti) ∧
    (∀ (n : String) (dfl : Defaults) (c : YamlConfig),
      c.projectTitle = none → (merge_with_defaults n dfl c).projectTitle = some n) ∧
    (∀ (n : String) (ae fd : List String) (c : YamlConfig),
      (update_config n ae fd c).projectTitle = some n) := by
  refine ⟨?_, ?_, ?_⟩
  · intro n dfl c ti h
    simp [merge_with_defaults, h]
  · intro n dfl c h
    simp [merge_with_defaults, h]
  · intro n ae fd c
    simp [update_config]

/-- Witness for the C9 amended theorem at a concrete configuration. -/
theorem c9_project_title_synthesis_witness :
    (merge_with_defaults "proj" ⟨[], [], []⟩
      ⟨some "custom", none, none, none, none⟩).projectTitle = some "custom" :=
  c9_project_title_synthesis.1 "proj" ⟨[], [], []⟩
    ⟨some "custom", none, none, none, none⟩ "custom" rfl

/-! Congruence in the per-call extension override, for C10. -/

theorem extensionsToCheck_self (incl : List String) :
    extensionsToCheck (some incl) incl = incl := by
  cases incl <;> rfl

theorem renderItems_ext_congr (cfg : Config) (sk cp : List String)
    (ft1 ft2 : Option (List String))
    (rc1 rc2 : FSTree → String → Bool → Except Unit (List Line)) (rel pfx : String)
    (total : Nat)
    (hext : extensionsToCheck ft1 cfg.includeExtensions =
      extensionsToCheck ft2 cfg.includeExtensions)
    (hrc : ∀ c crel il, rc1 c crel il = rc2 c crel il) :
    ∀ (i : Nat) (items : List FSTree),
      renderItems cfg sk cp ft1 rc1 rel pfx total i items =
        renderItems cfg sk cp ft2 rc2 rel pfx total i items := by
  intro i items
  induction items generalizing i with
  | nil => rfl
  | cons item rest ih =>
    rw [renderItems_cons, renderItems_cons, hext, hrc, ih]

theorem genTreeAux_ext_congr (cfg : Config) (sk cp : List String) (md : Nat)
    (ft1 ft2 : Option (List String))
    (hext : extensionsToCheck ft1 cfg.includeExtensions =
      extensionsToCheck ft2 cfg.includeExtensions) :
    ∀ (fuel : Nat) (t : FSTree) (rel pfx : String) (depth : Nat),
      genTreeAux cfg sk cp ft1 md fuel t rel pfx depth =
        genTreeAux cfg sk cp ft2 md fuel t rel pfx depth := by
  intro fuel
  induction fuel with
  | zero => intro t rel pfx depth; rfl
  | succ fuel ih =>
    intro t rel pfx depth
    rw [genTreeAux_succ, genTreeAux_succ]
    split
    · rfl
    · split
      · rfl
      · exact renderItems_ext_congr cfg sk cp ft1 ft2 _ _ rel pfx _ hext
          (fun c crel il => ih c crel _ _) 0 _

/-- C10: a call of generate_tree whose file_types argument is None or
the empty list filters files by the configured include_extensions (the
empty override does not take precedence), and only a non-empty
file_types list replaces the configured extensions for the call. -/
theorem c10_empty_file_types_fall_back (cfg : Config) (t : FSTree) (md : Nat)
    (sk cp : List String) (rel : String) :
    generate_tree cfg t none md sk cp rel =
      generate_tree cfg t (some cfg.includeExtensions) md sk cp rel ∧
    generate_tree cfg t (some []) md sk cp rel =
      generate_tree cfg t (some cfg.includeExtensions) md sk cp rel ∧
    (∀ (e : String) (es : List String),
      extensionsToCheck (some (e :: es)) cfg.includeExtensions = e :: es) := by
  refine ⟨?_, ?_, fun e es => rfl⟩
  · exact genTreeAux_ext_congr cfg sk cp md none (some cfg.includeExtensions)
      (extensionsToCheck_self cfg.includeExtensions).symm (md + 1) t rel "" 0
  · exact genTreeAux_ext_congr cfg sk cp md (some []) (some cfg.includeExtensions)
      (extensionsToCheck_self cfg.includeExtensions).symm (md + 1) t rel "" 0

/-- C5 counterexample: a directory whose listing fails (readable =
false) sitting next to a visible file makes the whole generate_tree call
fail; the sibling is not rendered and no per-entry skipping happens, so
the claimed entry-dropping error handling does not hold on this code. -/
theorem c5_counterexample :
    generate_tree ⟨[], [".py"], fun _ => false⟩
      (.mk "r" false true [.mk "bad" false false [], .mk "z.py" true true []])
      none 3 [] [] "r" = .error () := rfl

/-- Once the sibling loop holds an unskipped directory entry whose
recursive call fails, the whole loop fails: the failure either comes
from that entry or from an entry processed before it, and no branch of
the loop catches it. -/
theorem renderItems_error_of_mem (cfg : Config) (sk cp : List String)
    (ft : Option (List String)) (rc : FSTree → String → Bool → Except Unit (List Line))
    (rel pfx : String) (total : Nat) (c : FSTree) (hcf : c.isFile = false)
    (hcs : skipEntry cfg sk cp (joinRel rel c.name) c = false)
    (hrc : ∀ il : Bool, rc c (joinRel rel c.name) il = .error ()) :
    ∀ (items : List FSTree) (i : Nat), c ∈ items →
      renderItems cfg sk cp ft rc rel pfx total i items = .error () := by
  intro items
  induction items with
  | nil => intro i hc; simp at hc
  | cons item rest ih =>
    intro i hc
    rw [renderItems_cons]
    rcases List.mem_cons.mp hc with rfl | hc
    · rw [if_neg (by rw [hcs]; simp), if_pos hcf, hrc]
    · by_cases hskip : skipEntry cfg sk cp (joinRel rel item.name) item = true
      · rw [if_pos hskip]
        exact ih _ hc
      · rw [if_neg hskip]
        by_cases hfile : item.isFile = false
        · rw [if_pos hfile]
          cases hrcc : rc item (joinRel rel item.name) (decide (i = total - 1)) with
          | error e => cases e; rfl
          | ok sub => rw [ih (i + 1) hc]
        · rw [if_neg hfile]
          by_cases hext : ((extensionsToCheck ft cfg.includeExtensions).any
              (fun ext => pyEndsWith item.name ext)) = true
          · rw [if_pos hext, ih (i + 1) hc]
          · rw [if_neg hext]
            exact ih _ hc

/-- The raised listing failure propagates from wherever the traversal
reaches it up to the original call, as long as the fuel covers the
remaining admissible depth (generate_tree always supplies enough). -/
theorem genTreeAux_error_of_reaches (cfg : Config) (sk cp : List String)
    (ft : Option (List String)) (md : Nat) :
    ∀ (t : FSTree) (rel : String) (depth : Nat),
      ReachesUnreadable cfg sk cp md t rel depth →
      ∀ (fuel : Nat) (pfx : String), md < depth + fuel →
        genTreeAux cfg sk cp ft md fuel t rel pfx depth = .error () := by
  intro t rel depth h
  induction h with
  | here t rel depth hd hr =>
    intro fuel pfx hf
    cases fuel with
    | zero => omega
    | succ f => rw [genTreeAux_succ, if_neg (by omega), if_pos hr]
  | child t rel depth c hd hr hc hcf hcs hsub ih =>
    intro fuel pfx hf
    cases fuel with
    | zero => omega
    | succ f =>
      rw [genTreeAux_succ, if_neg (by omega), if_neg (by rw [hr]; simp)]
      refine renderItems_error_of_mem cfg sk cp ft _ rel pfx _ c hcf hcs
        (fun il => ih f _ (by omega)) _ 0 ?_
      exact (List.perm_insertionSort childOrderP t.children).mem_iff.mpr hc

/-- C5 amended: a listing failure is not caught anywhere in
generate_tree; whenever the traversal reaches an unreadable directory —
the rendered root itself, or any unskipped directory child entered
within the depth bound at any nesting — the raised error propagates and
the whole call fails instead of dropping the entry, and the failing
entry's siblings are not salvaged. -/
theorem c5_listing_failure_aborts (cfg : Config) (ft : Option (List String))
    (md : Nat) (sk cp : List String) (rel : String) (t : FSTree)
    (h : ReachesUnreadable cfg sk cp md t rel 0) :
    generate_tree cfg t ft md sk cp rel = .error () :=
  genTreeAux_error_of_reaches cfg sk cp ft md t rel 0 h (md + 1) "" (by omega)

/-- Witness for the C5 amended theorem: the unreadable directory sits
one level below the rendered root, next to a visible sibling file. -/
theorem c5_listing_failure_aborts_witness :
    generate_tree ⟨[], [".py"], fun _ => false⟩
      (.mk "r" false true [.mk "bad" false false [], .mk "z.py" true true []])
      none 3 [] [] "r" = .error () :=
  c5_listing_failure_aborts ⟨[], [".py"], fun _ => false⟩ none 3 [] [] "r"
    (.mk "r" false true [.mk "bad" false false [], .mk "z.py" true true []])
    (.child _ "r" 0 (.mk "bad" false false []) (by omega) rfl
      (List.mem_cons_self _ _) rfl rfl
      (.here _ (joinRel "r" "bad") 1 (by omega) rfl))

/-- C7 counterexample: with already-covered prefixes containing a, the
child b of the focus directory a has relative path a/b, which is
prefixed by the covered entry a; the claim says such a directory is
skipped, yet the renderer emits a line for it (only the other direction
of the prefix test is in the code). -/
theorem c7_counterexample :
    generate_tree ⟨[], [".py"], fun _ => false⟩ (.mk "a" false true [.mk "b" false true []])
      none 3 [] ["a"] "a" = .ok [⟨"", true, "b", true⟩] ∧
    pyStartsWith "a/b" "a" = true :=
  ⟨rfl, rfl⟩

/-- C7 amended: an entry is skipped (no line, no recursion) whenever its
path relative to the project root is in skip_relative_paths, or it is a
directory whose relative path is a string prefix of some entry of the
already-covered focus paths (in particular a directory that is itself
listed as a focus path); the converse direction, a relative path merely
having a covered entry as a prefix, does not cause a skip. -/
theorem c7_skip_covered_and_skip_paths (cfg : Config) (sk cp : List String)
    (ft : Option (List String)) (rc : FSTree → String → Bool → Except Unit (List Line))
    (rel pfx : String) (total i : Nat) (item : FSTree) (rest : List FSTree)
    (h : sk.contains (joinRel rel item.name) = true ∨
      (item.isFile = false ∧
        ∃ c ∈ cp, pyStartsWith c (joinRel rel item.name) = true)) :
    renderItems cfg sk cp ft rc rel pfx total i (item :: rest) =
      renderItems cfg sk cp ft rc rel pfx total (i + 1) rest := by
  have hskip : skipEntry cfg sk cp (joinRel rel item.name) item = true := by
    unfold skipEntry
    rcases h with h | ⟨hf, c, hc, hpw⟩
    · rw [h]
      simp
    · have hany : cp.any (fun c => pyStartsWith c (joinRel rel item.name)) = true :=
        List.any_eq_true.mpr ⟨c, hc, hpw⟩
      rw [hf, hany]
      simp
  rw [renderItems_cons, if_pos hskip]

/-- Witness for the C7 amended theorem: an entry whose relative path is
listed in skip_relative_paths contributes nothing to the loop. -/
theorem c7_skip_covered_and_skip_paths_witness :
    renderItems ⟨[], [], fun _ => false⟩ ["x/y"] [] none (fun _ _ _ => .ok []) "x" "" 1 0
        [.mk "y" true true []] =
      renderItems ⟨[], [], fun _ => false⟩ ["x/y"] [] none (fun _ _ _ => .ok []) "x" "" 1 1
        [] :=
  c7_skip_covered_and_skip_paths ⟨[], [], fun _ => false⟩ ["x/y"] [] none
    (fun _ _ _ => .ok []) "x" "" 1 0 (.mk "y" true true []) [] (Or.inl rfl)

/-- C4: evaluating the renderer at a directory whose unfiltered sorted
sibling list ends with an excluded directory. The sorted list is
a.py, node_modules; node_modules (index 1, the last index) is filtered
out, a.py keeps is_last = false from its position in the unfiltered
list, so the only emitted line carries the non-last connector. -/
theorem c4_last_marker_from_unfiltered_list :
    generate_tree ⟨["node_modules"], [".py"], fun _ => false⟩
        (.mk "api" false true
          [.mk "a.py" true true [], .mk "node_modules" false true [.mk "j.py" true true []]])
        none 3 [] [] "api" = .ok [⟨"", false, "a.py", false⟩] ∧
      Line.render ⟨"", false, "a.py", false⟩ = "├── a.py" :=
  ⟨rfl, rfl⟩

/-- C3 counterexample: a non-empty directory rendered with max_depth = 0
produces a non-empty line sequence (the direct children are emitted at
depth 0, since the guard stops only at depth greater than max_depth). -/
theorem c3_counterexample :
    generate_tree ⟨[], [".py"], fun _ => false⟩ (.mk "r" false true [.mk "a.py" true true []])
        none 0 [] [] "r" = .ok [⟨"", true, "a.py", false⟩] ∧
      (Except.ok [(⟨"", true, "a.py", false⟩ : Line)] : Except Unit (List Line)) ≠ .ok [] :=
  ⟨rfl, by simp⟩

/-- Where a rendered row can come from: every line produced by the
sibling loop is either emitted at this level for one unskipped sibling
(indentation equal to the loop's prefix, name and kind taken from that
sibling) or produced by the recursive call on one unskipped directory
sibling. -/
theorem renderItems_mem_origin (cfg : Config) (sk cp : List String)
    (ft : Option (List String)) (rc : FSTree → String → Bool → Except Unit (List Line))
    (rel pfx : String) (total : Nat) :
    ∀ (items : List FSTree) (i : Nat) (ls : List Line),
      renderItems cfg sk cp ft rc rel pfx total i items = .ok ls →
      ∀ l ∈ ls,
        (l.ind = pfx ∧ ∃ c ∈ items,
          skipEntry cfg sk cp (joinRel rel c.name) c = false ∧
          l.name = c.name ∧ l.isDir = !c.isFile) ∨
        (∃ c ∈ items, ∃ (il : Bool) (sub : List Line),
          skipEntry cfg sk cp (joinRel rel c.name) c = false ∧ c.isFile = false ∧
          rc c (joinRel rel c.name) il = .ok sub ∧ l ∈ sub) := by
  intro items
  induction items with
  | nil =>
    intro i ls h l hl
    rw [renderItems_nil] at h
    injection h with h
    subst h
    simp at hl
  | cons item rest ih =>
    intro i ls h l hl
    rw [renderItems_cons] at h
    split at h
    · rcases ih _ _ h l hl with ⟨hin, c, hc, hcrest⟩ | ⟨c, hc, hcrest⟩
      · exact Or.inl ⟨hin, c, List.mem_cons_of_mem _ hc, hcrest⟩
      · exact Or.inr ⟨c, List.mem_cons_of_mem _ hc, hcrest⟩
    · rename_i hskip
      have hskip' : skipEntry cfg sk cp (joinRel rel item.name) item = false :=
        Bool.not_eq_true _ ▸ Bool.of_not_eq_true hskip
      split at h
      · rename_i hfile
        split at h
        · simp at h
        · rename_i sub hrc
          split at h
          · simp at h
          · rename_i tail hrest
            injection h with h
            subst h
            rcases List.mem_cons.mp hl with hl | hl
            · subst hl
              exact Or.inl ⟨rfl, item, List.mem_cons_self _ _, hskip', rfl, by rw [hfile]; rfl⟩
            · rcases List.mem_append.mp hl with hl | hl
              · exact Or.inr ⟨item, List.mem_cons_self _ _, _, sub, hskip', hfile, hrc, hl⟩
              · rcases ih _ _ hrest l hl with ⟨hin, c, hc, hcrest⟩ | ⟨c, hc, hcrest⟩
                · exact Or.inl ⟨hin, c, List.mem_cons_of_mem _ hc, hcrest⟩
                · exact Or.inr ⟨c, List.mem_cons_of_mem _ hc, hcrest⟩
      · rename_i hfile
        split at h
        · split at h
          · simp at h
          · rename_i tail hrest
            injection h with h
            subst h
            rcases List.mem_cons.mp hl with hl | hl
            · subst hl
              refine Or.inl ⟨rfl, item, List.mem_cons_self _ _, hskip', rfl, ?_⟩
              cases hf : item.isFile with
              | false => exact absurd hf hfile
              | true => rfl
            · rcases ih _ _ hrest l hl with ⟨hin, c, hc, hcrest⟩ | ⟨c, hc, hcrest⟩
              · exact Or.inl ⟨hin, c, List.mem_cons_of_mem _ hc, hcrest⟩
              · exact Or.inr ⟨c, List.mem_cons_of_mem _ hc, hcrest⟩
        · rcases ih _ _ h l hl with ⟨hin, c, hc, hcrest⟩ | ⟨c, hc, hcrest⟩
          · exact Or.inl ⟨hin, c, List.mem_cons_of_mem _ hc, hcrest⟩
          · exact Or.inr ⟨c, List.mem_cons_of_mem _ hc, hcrest⟩

/-! The sort relation is total and transitive, so insertion sort yields a
sorted permutation of the sibling list. -/

theorem strLeB_total : ∀ s t : List Char, strLeB s t = true ∨ strLeB t s = true := by
  intro s
  induction s with
  | nil => intro t; exact Or.inl rfl
  | cons a as ih =>
    intro t
    cases t with
    | nil => exact Or.inr rfl
    | cons b bs =>
      simp only [strLeB]
      by_cases hab : a.toNat = b.toNat
      · rcases ih bs with h | h
        · exact Or.inl (by rw [if_pos hab]; exact h)
        · exact Or.inr (by rw [if_pos hab.symm]; exact h)
      · by_cases hlt : a.toNat < b.toNat
        · exact Or.inl (by rw [if_neg hab]; exact decide_eq_true hlt)
        · refine Or.inr ?_
          rw [if_neg (fun he => hab he.symm)]
          exact decide_eq_true (by omega)

theorem strLeB_trans :
    ∀ s t u : List Char, strLeB s t = true → strLeB t u = true → strLeB s u = true := by
  intro s
  induction s with
  | nil => intro t u _ _; rfl
  | cons a as ih =>
    intro t u hst htu
    cases t with
    | nil => exact absurd hst (by simp [strLeB])
    | cons b bs =>
      cases u with
      | nil => exact absurd htu (by simp [strLeB])
      | cons c cs =>
        simp only [strLeB] at hst htu ⊢
        by_cases hab : a.toNat = b.toNat
        · rw [if_pos hab] at hst
          by_cases hbc : b.toNat = c.toNat
          · rw [if_pos hbc] at htu
            rw [if_pos (hab.trans hbc)]
            exact ih bs cs hst htu
          · rw [if_neg hbc, decide_eq_true_eq] at htu
            rw [if_neg (show ¬a.toNat = c.toNat by omega)]
            exact decide_eq_true (by omega)
        · rw [if_neg hab, decide_eq_true_eq] at hst
          by_cases hbc : b.toNat = c.toNat
          · rw [if_neg (show ¬a.toNat = c.toNat by omega)]
            exact decide_eq_true (by omega)
          · rw [if_neg hbc, decide_eq_true_eq] at htu
            rw [if_neg (show ¬a.toNat = c.toNat by omega)]
            exact decide_eq_true (by omega)

instance : IsTotal FSTree childOrderP := by
  constructor
  intro a b
  unfold childOrderP childOrder
  by_cases hab : a.isFile = b.isFile
  · rw [if_pos hab, if_pos hab.symm]
    exact strLeB_total a.name.data b.name.data
  · rw [if_neg hab, if_neg (fun h => hab h.symm)]
    cases ha : a.isFile with
    | true => exact Or.inl rfl
    | false =>
      cases hb : b.isFile with
      | true => exact Or.inr rfl
      | false => exact absurd (ha.trans hb.symm) hab

instance : IsTrans FSTree childOrderP := by
  constructor
  intro a b c hab hbc
  unfold childOrderP childOrder at *
  by_cases h1 : a.isFile = b.isFile
  · rw [if_pos h1] at hab
    by_cases h2 : b.isFile = c.isFile
    · rw [if_pos h2] at hbc
      rw [if_pos (h1.trans h2)]
      exact strLeB_trans _ _ _ hab hbc
    · rw [if_neg h2] at hbc
      rw [if_neg (fun he => h2 (h1.symm.trans he)), h1]
      exact hbc
  · rw [if_neg h1] at hab
    by_cases h2 : b.isFile = c.isFile
    · rw [if_neg (fun he => h1 (he.trans h2.symm))]
      exact hab
    · rw [if_neg h2] at hbc
      cases hfb : b.isFile with
      | true => exact absurd (hfb ▸ hbc) (by rw [hfb] at h2; simp_all)
      | false => rw [hfb] at hbc; cases hbc
  
/-- Rows produced by a recursive child call are indented at least four
characters past the parent prefix, so they can never be confused with
rows of the parent's own level. -/
theorem genTreeAux_ind_len (cfg : Config) (sk cp : List String)
    (ft : Option (List String)) (md : Nat) :
    ∀ (fuel : Nat) (t : FSTree) (rel pfx : String) (depth : Nat) (ls : List Line),
      genTreeAux cfg sk cp ft md fuel t rel pfx depth = .ok ls →
      ∀ l ∈ ls, pfx.length ≤ l.ind.length := by
  intro fuel
  induction fuel with
  | zero =>
    intro t rel pfx depth ls h l hl
    rw [genTreeAux_zero] at h
    injection h with h
    subst h
    simp at hl
  | succ fuel ih =>
    intro t rel pfx depth ls h l hl
    rw [genTreeAux_succ] at h
    split at h
    · injection h with h
      subst h
      simp at hl
    · split at h
      · simp at h
      · rcases renderItems_mem_origin _ _ _ _ _ _ _ _ _ _ _ h l hl with
          ⟨hin, -⟩ | ⟨c, -, il, sub, -, -, hrcc, hlsub⟩
        · rw [hin]
        · have hlen := ih c _ _ _ sub hrcc l hlsub
          rw [String.length_append] at hlen
          have hg : (if il then "    " else "│   " : String).length = 4 := by
            cases il <;> decide
          omega

/-- The fuel argument does not matter once depth + fuel exceeds
max_depth: the depth guard of the source fires before fuel can run out,
so generate_tree's choice fuel = max_depth + 1 is canonical. -/
theorem genTreeAux_fuel_irrelevant (cfg : Config) (sk cp : List String)
    (ft : Option (List String)) (md : Nat) :
    ∀ (fuel : Nat) (t : FSTree) (rel pfx : String) (depth : Nat),
      md < depth + fuel →
      genTreeAux cfg sk cp ft md fuel t rel pfx depth =
        genTreeAux cfg sk cp ft md (fuel + 1) t rel pfx depth := by
  intro fuel
  induction fuel with
  | zero =>
    intro t rel pfx depth h
    rw [genTreeAux_zero, genTreeAux_succ, if_pos (by omega)]
  | succ fuel ih =>
    intro t rel pfx depth h
    rw [genTreeAux_succ, genTreeAux_succ]
    by_cases hd : depth > md
    · rw [if_pos hd, if_pos hd]
    · rw [if_neg hd, if_neg hd]
      split
      · rfl
      · exact renderItems_ext_congr cfg sk cp ft ft _ _ rel pfx _ rfl
          (fun c crel il => ih c crel _ (depth + 1) (by omega)) 0 _

/-! Exclusion cuts whole subtrees: machinery for C1. -/

theorem visNames_mk (excl : List String) (n : String) (f r : Bool) (cs : List FSTree) :
    visNames excl (.mk n f r cs) = visNames.visNamesList excl cs := by
  rfl

theorem visNamesList_cons (excl : List String) (c : FSTree) (cs : List FSTree) :
    visNames.visNamesList excl (c :: cs) =
      (if excl.contains c.name then [] else c.name :: visNames excl c) ++
        visNames.visNamesList excl cs := by
  rfl

theorem mem_visNamesList (excl : List String) :
    ∀ (cs : List FSTree) (c : FSTree), c ∈ cs → excl.contains c.name = false →
      c.name ∈ visNames.visNamesList excl cs ∧
        ∀ x ∈ visNames excl c, x ∈ visNames.visNamesList excl cs := by
  intro cs
  induction cs with
  | nil => intro c hc; simp at hc
  | cons d ds ih =>
    intro c hc hnc
    rw [visNamesList_cons]
    rcases List.mem_cons.mp hc with rfl | hc
    · rw [hnc]
      constructor
      · exact List.mem_append_left _ (List.mem_cons_self _ _)
      · intro x hx
        exact List.mem_append_left _ (List.mem_cons_of_mem _ hx)
    · obtain ⟨h1, h2⟩ := ih c hc hnc
      exact ⟨List.mem_append_right _ h1, fun x hx => List.mem_append_right _ (h2 x hx)⟩

theorem skipEntry_false_not_excluded (cfg : Config) (sk cp : List String)
    (childRel : String) (item : FSTree)
    (h : skipEntry cfg sk cp childRel item = false) :
    cfg.excludeDirs.contains item.name = false := by
  unfold skipEntry at h
  cases hx : cfg.excludeDirs.contains item.name with
  | false => rfl
  | true => rw [hx] at h; simp at h

/-- Every row an invocation of the renderer can produce carries a name
that is not excluded and that belongs to a descendant reachable without
entering any excluded subtree. -/
theorem genTreeAux_visible_names (cfg : Config) (sk cp : List String)
    (ft : Option (List String)) (md : Nat) :
    ∀ (fuel : Nat) (t : FSTree) (rel pfx : String) (depth : Nat) (ls : List Line),
      genTreeAux cfg sk cp ft md fuel t rel pfx depth = .ok ls →
      ∀ l ∈ ls, cfg.excludeDirs.contains l.name = false ∧
        l.name ∈ visNames cfg.excludeDirs t := by
  intro fuel
  induction fuel with
  | zero =>
    intro t rel pfx depth ls h l hl
    rw [genTreeAux_zero] at h
    injection h with h
    subst h
    simp at hl
  | succ fuel ih =>
    intro t rel pfx depth ls h l hl
    rw [genTreeAux_succ] at h
    split at h
    · injection h with h
      subst h
      simp at hl
    · split at h
      · simp at h
      · rcases renderItems_mem_origin _ _ _ _ _ _ _ _ _ _ _ h l hl with
          ⟨-, c, hc, hns, hn, -⟩ | ⟨c, hc, il, sub, hns, -, hrcc, hlsub⟩
        · have hc' : c ∈ t.children :=
            (List.perm_insertionSort childOrderP t.children).mem_iff.mp hc
          have hnc := skipEntry_false_not_excluded cfg sk cp _ c hns
          rw [hn]
          cases t with
          | mk n f r cs =>
            rw [visNames_mk]
            exact ⟨hnc, (mem_visNamesList cfg.excludeDirs cs c hc' hnc).1⟩
        · have hc' : c ∈ t.children :=
            (List.perm_insertionSort childOrderP t.children).mem_iff.mp hc
          have hnc := skipEntry_false_not_excluded cfg sk cp _ c hns
          obtain ⟨h1, h2⟩ := ih c _ _ _ sub hrcc l hlsub
          refine ⟨h1, ?_⟩
          cases t with
          | mk n f r cs =>
            rw [visNames_mk]
            exact (mem_visNamesList cfg.excludeDirs cs c hc' hnc).2 l.name h2

/-- C1: under any configuration, a rendered tree never contains a line
whose display name is in exclude_directory_names, and every rendered
line names an entry reachable without entering an excluded entry's
subtree: exclusion removes an excluded entry together with its whole
subtree at every depth. -/
theorem c1_excluded_subtrees_absent (cfg : Config) (t : FSTree)
    (ft : Option (List String)) (md : Nat) (sk cp : List String) (rel : String)
    (ls : List Line) (h : generate_tree cfg t ft md sk cp rel = .ok ls) :
    ∀ l ∈ ls, cfg.excludeDirs.contains l.name = false ∧
      l.name ∈ visNames cfg.excludeDirs t :=
  genTreeAux_visible_names cfg sk cp ft md (md + 1) t rel "" 0 ls h

/-- Witness for the C1 theorem at a concrete tree containing an excluded
directory. -/
theorem c1_excluded_subtrees_absent_witness :
    (["node_modules"] : List String).contains "a.py" = false ∧
      "a.py" ∈ visNames ["node_modules"]
        (.mk "api" false true
          [.mk "a.py" true true [],
            .mk "node_modules" false true [.mk "j.py" true true []]]) :=
  c1_excluded_subtrees_absent ⟨["node_modules"], [".py"], fun _ => false⟩
    (.mk "api" false true
      [.mk "a.py" true true [], .mk "node_modules" false true [.mk "j.py" true true []]])
    none 3 [] [] "api" [⟨"", false, "a.py", false⟩] rfl
    ⟨"", false, "a.py", false⟩ (List.mem_singleton.mpr rfl)

/-- C3 amended: with max_depth = 0 the renderer emits exactly one level:
every line of the output is un-indented and names a direct child of the
rendered root; an empty output is not guaranteed (see the C3
counterexample), only the absence of deeper lines is. -/
theorem c3_max_depth_zero_renders_one_level (cfg : Config) (ft : Option (List String))
    (sk cp : List String) (rel : String) (t : FSTree) (ls : List Line)
    (h : generate_tree cfg t ft 0 sk cp rel = .ok ls) :
    ∀ l ∈ ls, l.ind = "" ∧ l.name ∈ t.children.map FSTree.name := by
  unfold generate_tree at h
  rw [genTreeAux_succ, if_neg (lt_irrefl 0)] at h
  split at h
  · simp at h
  · intro l hl
    rcases renderItems_mem_origin _ _ _ _ _ _ _ _ _ _ _ h l hl with
      ⟨hin, c, hc, -, hn, -⟩ | ⟨c, -, il, sub, -, -, hrcc, hlsub⟩
    · refine ⟨hin, ?_⟩
      rw [hn]
      exact List.mem_map_of_mem _
        ((List.perm_insertionSort childOrderP t.children).mem_iff.mp hc)
    · rw [genTreeAux_zero] at hrcc
      injection hrcc with hrcc
      subst hrcc
      simp at hlsub

/-- Witness for the C3 amended theorem at a concrete one-file tree. -/
theorem c3_max_depth_zero_renders_one_level_witness :
    (⟨"", true, "a.py", false⟩ : Line).ind = "" ∧
      (⟨"", true, "a.py", false⟩ : Line).name ∈
        (FSTree.mk "r" false true [.mk "a.py" true true []]).children.map FSTree.name :=
  c3_max_depth_zero_renders_one_level ⟨[], [".py"], fun _ => false⟩ none [] [] "r"
    (.mk "r" false true [.mk "a.py" true true []]) [⟨"", true, "a.py", false⟩] rfl
    ⟨"", true, "a.py", false⟩ (List.mem_singleton.mpr rfl)

/-- A rendered row inherits its place in the claimed (is_directory,
name) order from the sibling order used for sorting. -/
theorem lineKeyLE_of_childOrder (a b : FSTree) (la lb : Line)
    (hna : la.name = a.name) (hda : la.isDir = !a.isFile)
    (hnb : lb.name = b.name) (hdb : lb.isDir = !b.isFile)
    (h : childOrder a b = true) : lineKeyLE la lb = true := by
  unfold lineKeyLE
  unfold childOrder at h
  rw [hna, hda, hnb, hdb]
  by_cases hf : a.isFile = b.isFile
  · rw [if_pos hf] at h
    rw [if_pos (by rw [hf])]
    exact h
  · rw [if_neg hf] at h
    rw [if_neg (fun he => hf (Bool.not_inj he))]
    rw [h]
    rfl

/-- The rows a sibling loop emits at its own level are sorted by the
(is_directory, name) key whenever the sibling list it walks is sorted by
the sibling order, provided recursive rows are never at this level. -/
theorem renderItems_level_sorted (cfg : Config) (sk cp : List String)
    (ft : Option (List String)) (rc : FSTree → String → Bool → Except Unit (List Line))
    (rel pfx : String) (total : Nat)
    (hrc : ∀ c crel il sub, rc c crel il = .ok sub → ∀ l ∈ sub, l.ind ≠ pfx) :
    ∀ (items : List FSTree) (i : Nat) (ls : List Line),
      List.Pairwise childOrderP items →
      renderItems cfg sk cp ft rc rel pfx total i items = .ok ls →
      List.Pairwise (fun a b => lineKeyLE a b = true)
        (ls.filter (fun l => l.ind == pfx)) := by
  intro items
  induction items with
  | nil =>
    intro i ls _ h
    rw [renderItems_nil] at h
    injection h with h
    subst h
    simp
  | cons item rest ih =>
    intro i ls hsort h
    obtain ⟨hhead, htail⟩ := List.pairwise_cons.mp hsort
    rw [renderItems_cons] at h
    split at h
    · exact ih _ _ htail h
    · split at h
      · rename_i hfile
        split at h
        · simp at h
        · rename_i sub hrcc
          split at h
          · simp at h
          · rename_i tail hrest
            injection h with h
            subst h
            have hsubnil : sub.filter (fun l => l.ind == pfx) = [] := by
              refine List.filter_eq_nil_iff.mpr ?_
              intro a ha
              have := hrc _ _ _ _ hrcc a ha
              simp [this]
            rw [List.filter_cons, if_pos (by simp), List.filter_append, hsubnil,
              List.nil_append]
            refine List.pairwise_cons.mpr ⟨?_, ih _ _ htail hrest⟩
            intro l' hl'
            obtain ⟨hl'tail, hp'⟩ := List.mem_filter.mp hl'
            have hind : l'.ind = pfx := by simpa using hp'
            rcases renderItems_mem_origin _ _ _ _ _ _ _ _ _ _ _ hrest l' hl'tail with
              ⟨-, c, hc, -, hn', hd'⟩ | ⟨c, -, il, sub', -, -, hrcc', hlsub'⟩
            · exact lineKeyLE_of_childOrder item c _ l' rfl (by rw [hfile]; rfl) hn' hd'
                (hhead c hc)
            · exact absurd hind (hrc _ _ _ _ hrcc' l' hlsub')
      · rename_i hfile
        have hft : item.isFile = true := by
          cases hx : item.isFile with
          | false => exact absurd hx hfile
          | true => rfl
        split at h
        · split at h
          · simp at h
          · rename_i tail hrest
            injection h with h
            subst h
            rw [List.filter_cons, if_pos (by simp)]
            refine List.pairwise_cons.mpr ⟨?_, ih _ _ htail hrest⟩
            intro l' hl'
            obtain ⟨hl'tail, hp'⟩ := List.mem_filter.mp hl'
            have hind : l'.ind = pfx := by simpa using hp'
            rcases renderItems_mem_origin _ _ _ _ _ _ _ _ _ _ _ hrest l' hl'tail with
              ⟨-, c, hc, -, hn', hd'⟩ | ⟨c, -, il, sub', -, -, hrcc', hlsub'⟩
            · exact lineKeyLE_of_childOrder item c _ l' rfl (by rw [hft]; rfl) hn' hd'
                (hhead c hc)
            · exact absurd hind (hrc _ _ _ _ hrcc' l' hlsub')
        · exact ih _ _ htail h

/-- C2: at every level of the rendered tree the sibling rows appear
sorted by the key (is_directory, name) ascending: at a fixed
indentation prefix within one invocation, files precede directories and
names are in ascending string order within each group. -/
theorem c2_sibling_lines_sorted (cfg : Config) (sk cp : List String)
    (ft : Option (List String)) (md fuel : Nat) (t : FSTree) (rel pfx : String)
    (depth : Nat) (ls : List Line)
    (h : genTreeAux cfg sk cp ft md fuel t rel pfx depth = .ok ls) :
    List.Pairwise (fun a b => lineKeyLE a b = true)
      (ls.filter (fun l => l.ind == pfx)) := by
  cases fuel with
  | zero =>
    rw [genTreeAux_zero] at h
    injection h with h
    subst h
    simp
  | succ fuel =>
    rw [genTreeAux_succ] at h
    split at h
    · injection h with h
      subst h
      simp
    · split at h
      · simp at h
      · refine renderItems_level_sorted cfg sk cp ft _ rel pfx _ ?_ _ _ _ ?_ h
        · intro c crel il sub hrcc l hl he
          have hlen := genTreeAux_ind_len cfg sk cp ft md fuel c crel _ _ sub hrcc l hl
          rw [String.length_append] at hlen
          have hg : (if il then "    " else "│   " : String).length = 4 := by
            cases il <;> decide
          rw [he] at hlen
          omega
        · exact List.sorted_insertionSort childOrderP t.children

/-- Witness for the C2 theorem: a directory with a file and a
subdirectory renders the file line before the directory line, and the
top-level rows are sorted under the key. -/
theorem c2_sibling_lines_sorted_witness :
    List.Pairwise (fun a b => lineKeyLE a b = true)
      (([⟨"", false, "a.py", false⟩, ⟨"", true, "b", true⟩] : List Line).filter
        (fun l => l.ind == "")) :=
  c2_sibling_lines_sorted ⟨[], [".py"], fun _ => false⟩ [] [] none 3 4
    (.mk "r" false true [.mk "b" false true [], .mk "a.py" true true []]) "r" "" 0
    [⟨"", false, "a.py", false⟩, ⟨"", true, "b", true⟩] rfl
